import Mathlib

/-!
# Verification of the parallel-join callback primitive

Shallow embedding of the `ParallelCallback` join primitive from
`code/cpp11_parallel_callback/parallel_test_3.cpp` (whose `step`, `check`
and `operator Callback` members are verbatim identical in
`parallel_test_2.cpp`), together with a small model of the first,
race-prone variant in `parallel_test_1.cpp`.

The shared state `ParallelCallbackData` holds the completion callback, an
atomic `int` counter and an atomic `bool` `started` flag.  We model it as a
record with an integer counter, the `started` flag, a count `fired` of how
many times the completion callback has been invoked, and a flag
`hasCallback` recording whether the stored `std::function` is non-empty
(the C++ `data->callback` test).

The three operations on the shared state are

* `step` — the private static member: `if (data->counter-- == 0)
  { if (data->started && data->callback) data->callback(); }`.
  The post-decrement expression `counter-- == 0` always decrements and
  tests the *pre*-decrement value, which is how `step` is written here
  (test the old value, then store old value − 1; `started` is unchanged by
  the decrement, so reading it before or after is equivalent).
* `mintRaw` — the body of `operator Callback()` past its assertion:
  `++_data->counter` and hand out a slot bound to the shared data;
  invoking a slot runs `step`.
* `checkRaw` — the body of `check()` past its assertion:
  `_data->started = true; step(_data);`.

A run of one join operation is a list of `Event`s (`mint` = the implicit
conversion `operator Callback()`, `fire` = invoking a minted slot,
`close` = `check()`), executed left to right against the shared state.
Because every minted slot is bound to the same shared `DataPtr` and its
invocation is exactly `step`, the aggregate counts of events fully
determine the state, so interleavings are lists of events.
-/

namespace ParallelJoin

/-- Model of `ParallelCallbackData`: `counter : std::atomic<int>`,
`started : std::atomic<bool>`, plus `fired` counting completed
`data->callback()` invocations and `hasCallback` for the truth value of
the `std::function` test `data->callback`. -/
structure Data where
  counter : Int
  started : Bool
  fired : Nat
  hasCallback : Bool
deriving DecidableEq

/-- `ParallelCallback::step`: `if (data->counter-- == 0) { if
(data->started && data->callback) { data->callback(); } }`.  The
post-decrement `counter-- == 0` tests the pre-decrement value and always
stores `counter − 1`. -/
def step (d : Data) : Data :=
  if d.counter = 0 then
    if d.started && d.hasCallback then
      { d with counter := d.counter - 1, fired := d.fired + 1 }
    else
      { d with counter := d.counter - 1 }
  else
    { d with counter := d.counter - 1 }

/-- Body of `operator Callback()` after its `assert(!_data->started)`:
`++_data->counter` (the returned slot is `std::bind(&step, _data)`, i.e.
invoking it is the `fire` event below). -/
def mintRaw (d : Data) : Data :=
  { d with counter := d.counter + 1 }

/-- Body of `check()` after its `assert(!_data->started)`:
`_data->started = true; step(_data);`. -/
def checkRaw (d : Data) : Data :=
  step { d with started := true }

/-- Fresh shared state built by `ParallelCallback(callback)`:
`counter(0), started(false)`; `cb` records whether the stored callback is
non-empty. -/
def initData (cb : Bool) : Data :=
  { counter := 0, started := false, fired := 0, hasCallback := cb }

/-- One atomic event of a join operation: a mint (`operator Callback()`),
a slot invocation (`step` via the bound slot), or the close (`check()`). -/
inductive Event where
  | mint : Event
  | fire : Event
  | close : Event
deriving DecidableEq

/-- Effect of one event on the shared state (assertions elided; see
`execE` for the assertion-checked execution). -/
def execEvent (d : Data) : Event → Data
  | Event.mint => mintRaw d
  | Event.fire => step d
  | Event.close => checkRaw d

/-- Execute a list of events left to right. -/
def exec (d : Data) : List Event → Data
  | [] => d
  | e :: l => exec (execEvent d e) l

/-- Number of `mint` events in a trace. -/
def nMint : List Event → Nat
  | [] => 0
  | Event.mint :: l => nMint l + 1
  | _ :: l => nMint l

/-- Number of `fire` events in a trace. -/
def nFire : List Event → Nat
  | [] => 0
  | Event.fire :: l => nFire l + 1
  | _ :: l => nFire l

/-- Number of `close` events in a trace. -/
def nClose : List Event → Nat
  | [] => 0
  | Event.close :: l => nClose l + 1
  | _ :: l => nClose l

/-- Well-formed continuation of a trace, given that `m` mints, `f` fires
and `c` closes have already happened: a mint requires that close has not
happened (all mints precede the close), a fire requires an outstanding
minted slot that has not fired (each slot invoked at most once, only
after its mint), and close happens at most once. -/
def wfFrom : Nat → Nat → Nat → List Event → Bool
  | _, _, _, [] => true
  | m, f, c, Event.mint :: l => decide (c = 0) && wfFrom (m + 1) f c l
  | m, f, c, Event.fire :: l => decide (f < m) && wfFrom m (f + 1) c l
  | m, f, c, Event.close :: l => decide (c = 0) && wfFrom m f (c + 1) l

/-- Well-formed trace of one join operation: mints all precede the (at
most one) close, and no slot fires more often than slots were minted. -/
def wf (l : List Event) : Bool :=
  wfFrom 0 0 0 l

/-- Canonical shape of the shared state after `m` mints, `f` fires and
`c ∈ {0, 1}` closes (with a callback iff `cb`): the counter is
`m − f − c`, `started` iff the close has happened, and the completion has
fired exactly when the close has happened and every minted slot has
fired. -/
def canon (cb : Bool) (m f c : Nat) : Data :=
  { counter := (m : Int) - (f : Int) - (c : Int)
    started := decide (0 < c)
    fired := if cb && decide (0 < c) && decide (f = m) then 1 else 0
    hasCallback := cb }


/-- Failure modes of the checked model: `assertFailed` models a failing
`assert(!_data->started)`, and `noOverload` models the fact that the
`operator()` overload set of `ParallelCallback` has no member taking zero
arguments (so `run(completion)` with an empty starter pack is ill-formed
and cannot invoke anything). -/
inductive RunError where
  | noOverload : RunError
  | assertFailed : RunError
deriving DecidableEq

/-- `operator Callback()` with its assertion:
`assert(!_data->started); ++_data->counter; return std::bind(&step, _data);`. -/
def mintE (d : Data) : Except RunError Data :=
  if d.started then Except.error RunError.assertFailed
  else Except.ok (mintRaw d)

/-- `check()` with its assertion:
`assert(!_data->started); _data->started = true; step(_data);`. -/
def checkE (d : Data) : Except RunError Data :=
  if d.started then Except.error RunError.assertFailed
  else Except.ok (checkRaw d)

/-- Assertion-checked execution of a trace: mints and the close go
through their `assert(!_data->started)`; slot invocations (`step`) are
assertion-free. -/
def execE (d : Data) : List Event → Except RunError Data
  | [] => Except.ok d
  | Event.mint :: l =>
    match mintE d with
    | Except.error e => Except.error e
    | Except.ok d' => execE d' l
  | Event.fire :: l => execE (step d) l
  | Event.close :: l =>
    match checkE d with
    | Except.error e => Except.error e
    | Except.ok d' => execE d' l


/-!
## The variadic fan-out `run`

`ParallelCallback::run(arg, args...)` constructs one `ParallelCallback`
over `arg` and then calls `parallel(args...)`.  The `operator()`
overloads are

* `operator()(arg, args...)` (at least two arguments):
  `arg(*this); operator()(args...);`
* `operator()(arg)` (exactly one argument): `arg(*this); check();`

and there is no zero-argument overload, so the empty pack has no viable
overload.  At each call `arg(*this)`, binding `*this` to the starter's
`const Callback&` parameter invokes `operator Callback()` — the mint —
and hands the starter the freshly minted slot.

A starter receives only its slot (whose invocation is `step` on the
shared state); its only way to affect the shared state during `run` is to
invoke that slot some number of times.  We therefore model a starter by a
natural number: how many times it synchronously invokes its slot while
`run` executes (the demo starters `startTaskOne`/`startTaskTwo` invoke it
zero times synchronously and schedule one asynchronous invocation, which
the event-trace model covers as a later `fire`). -/

/-- Effect on the shared state of a starter that synchronously invokes
its slot `k` times. -/
def applyStarter (k : Nat) (d : Data) : Data :=
  step^[k] d

/-- The `operator()` overload set, dispatched on the starter pack:
no zero-argument overload; one argument mints, runs the starter, then
`check()`; two or more arguments mint, run the head starter, then recurse. -/
def opCall (d : Data) : List Nat → Except RunError Data
  | [] => Except.error RunError.noOverload
  | [k] =>
    match mintE d with
    | Except.error e => Except.error e
    | Except.ok d' => checkE (applyStarter k d')
  | k :: k2 :: l =>
    match mintE d with
    | Except.error e => Except.error e
    | Except.ok d' => opCall (applyStarter k d') (k2 :: l)

/-- `ParallelCallback::run(arg, args...)`: construct one handle over the
completion, then `parallel(args...)`. -/
def runPC (cb : Bool) (l : List Nat) : Except RunError Data :=
  opCall (initData cb) l

/-- Modelled from the spec: "constructs one JoinCallback over
`completion`; for each starter in sequence, mints a slot and invokes that
starter synchronously with the slot; after the last starter has been
invoked, calls `close()`."  The mint/invoke phase, starter by starter in
sequence order. -/
def runSpecPhase (d : Data) : List Nat → Data
  | [] => d
  | k :: l => runSpecPhase (applyStarter k (mintRaw d)) l

/-- Modelled from the spec: the whole fan-out — one fresh join state,
the mint/invoke phase over all starters in order, then the close. -/
def runSpec (cb : Bool) (l : List Nat) : Except RunError Data :=
  checkE (runSpecPhase (initData cb) l)


end ParallelJoin

namespace Test1

/-!
## The first variant (`parallel_test_1.cpp`)

`startTwoTasks` builds a shared `std::atomic<int>` counter initialised to
`2` and one shared callback `parallel` whose body is

    --(*counter);
    if (counter->load() == 0) { callback(); }

and hands `parallel` to two asynchronous tasks.  Each task's invocation
thus consists of two separate atomic steps on shared state: (pc 0) the
decrement, and (pc 1) the load-compare-and-maybe-call.  A schedule is a
list of thread identifiers (`false` = task one, `true` = task two); at
each schedule entry the named thread runs its next atomic step. -/

/-- Shared counter, number of `callback()` invocations, and the program
counter of each of the two tasks (0 = about to decrement, 1 = about to
load and test, 2 = done). -/
structure State where
  counter : Int
  fired : Nat
  pcA : Nat
  pcB : Nat
deriving DecidableEq

/-- One atomic step of the shared body `--(*counter); if (counter->load()
== 0) callback();`, at program counter `pc`. -/
def act (pc : Nat) (counter : Int) (fired : Nat) : Int × Nat :=
  match pc with
  | 0 => (counter - 1, fired)
  | 1 => (counter, if counter = 0 then fired + 1 else fired)
  | _ => (counter, fired)

/-- Run one atomic step of the thread named by `tid`. -/
def stepThread (s : State) (tid : Bool) : State :=
  if tid then
    { s with
      counter := (act s.pcB s.counter s.fired).1
      fired := (act s.pcB s.counter s.fired).2
      pcB := s.pcB + 1 }
  else
    { s with
      counter := (act s.pcA s.counter s.fired).1
      fired := (act s.pcA s.counter s.fired).2
      pcA := s.pcA + 1 }

/-- Execute a schedule (an interleaving of the two tasks' steps). -/
def sched (s : State) : List Bool → State
  | [] => s
  | t :: l => sched (stepThread s t) l

/-- Initial state of `startTwoTasks`: `counter = 2`, no invocation yet,
both tasks before their decrement. -/
def init : State :=
  { counter := 2, fired := 0, pcA := 0, pcB := 0 }

end Test1

namespace ParallelJoin

theorem initData_eq_canon (cb : Bool) : initData cb = canon cb 0 0 0 := by
  cases cb <;> decide

theorem step_started (d : Data) : (step d).started = d.started := by
  unfold step
  split <;> [skip; rfl]
  split <;> rfl

theorem step_counter (d : Data) : (step d).counter = d.counter - 1 := by
  unfold step
  split <;> [skip; rfl]
  split <;> rfl

theorem step_fired (d : Data) :
    (step d).fired =
      if d.counter = 0 ∧ d.started = true ∧ d.hasCallback = true then
        d.fired + 1
      else d.fired := by
  unfold step
  split_ifs with h1 h2 h3 h3 <;> first | rfl | simp_all

/-- `step` invokes the completion exactly when the decrement crosses the
threshold (post-decrement counter `−1`, pre-decrement `0`) and `started`
is set, provided the stored callback is non-empty. -/
theorem step_fired_iff (d : Data) (hcb : d.hasCallback = true) :
    ((step d).fired = d.fired + 1 ↔
      ((step d).counter = -1 ∧ d.started = true)) := by
  rw [step_fired, step_counter]
  by_cases h : d.counter = 0 ∧ d.started = true
  · obtain ⟨h1, h2⟩ := h
    rw [if_pos ⟨h1, h2, hcb⟩]
    constructor
    · intro _
      exact ⟨by omega, h2⟩
    · intro _
      rfl
  · rw [if_neg (fun hcon => h ⟨hcon.1, hcon.2.1⟩)]
    constructor
    · intro hfe
      exfalso
      omega
    · intro hco
      exfalso
      exact h ⟨by omega, hco.2⟩

theorem mintRaw_canon (cb : Bool) (m f : Nat) :
    mintRaw (canon cb m f 0) = canon cb (m + 1) f 0 := by
  simp [mintRaw, canon, Data.mk.injEq]
  push_cast
  ring

theorem step_canon (cb : Bool) (m f c : Nat) (hf : f < m) (hc : c ≤ 1) :
    step (canon cb m f c) = canon cb m (f + 1) c := by
  simp only [step, canon]
  split_ifs with h1 h2 <;>
    simp only [Data.mk.injEq] <;>
    cases cb <;>
    simp_all <;>
    omega

theorem checkRaw_canon (cb : Bool) (m f : Nat) (hf : f ≤ m) :
    checkRaw (canon cb m f 0) = canon cb m f 1 := by
  simp only [checkRaw, step, canon]
  split_ifs with h1 h2 <;>
    simp only [Data.mk.injEq] <;>
    cases cb <;>
    simp_all <;>
    omega

theorem wfFrom_bounds (l : List Event) :
    ∀ m f c, wfFrom m f c l = true → c ≤ 1 → f ≤ m →
      c + nClose l ≤ 1 ∧ f + nFire l ≤ m + nMint l := by
  induction l with
  | nil =>
    intro m f c _ hc hf
    simp [nClose, nFire, nMint]
    omega
  | cons e l ih =>
    intro m f c hw hc hf
    cases e with
    | mint =>
      simp only [wfFrom, Bool.and_eq_true, decide_eq_true_eq] at hw
      obtain ⟨hc0, hw⟩ := hw
      have := ih (m + 1) f c hw hc (by omega)
      simp only [nClose, nFire, nMint]
      omega
    | fire =>
      simp only [wfFrom, Bool.and_eq_true, decide_eq_true_eq] at hw
      obtain ⟨hfm, hw⟩ := hw
      have := ih m (f + 1) c hw hc (by omega)
      simp only [nClose, nFire, nMint]
      omega
    | close =>
      simp only [wfFrom, Bool.and_eq_true, decide_eq_true_eq] at hw
      obtain ⟨hc0, hw⟩ := hw
      have := ih m f (c + 1) hw (by omega) hf
      simp only [nClose, nFire, nMint]
      omega

/-- Execution invariant: starting from the canonical state for counts
`(m, f, c)`, a well-formed continuation leads to the canonical state for
the updated counts. -/
theorem exec_canon (cb : Bool) (l : List Event) :
    ∀ m f c, wfFrom m f c l = true → c ≤ 1 → f ≤ m →
      exec (canon cb m f c) l =
        canon cb (m + nMint l) (f + nFire l) (c + nClose l) := by
  induction l with
  | nil =>
    intro m f c _ _ _
    simp [exec, nMint, nFire, nClose]
  | cons e l ih =>
    intro m f c hw hc hf
    cases e with
    | mint =>
      simp only [wfFrom, Bool.and_eq_true, decide_eq_true_eq] at hw
      obtain ⟨hc0, hw⟩ := hw
      subst hc0
      simp only [exec, execEvent, nMint, nFire, nClose]
      rw [mintRaw_canon, ih (m + 1) f 0 hw (by omega) (by omega)]
      congr 1
      omega
    | fire =>
      simp only [wfFrom, Bool.and_eq_true, decide_eq_true_eq] at hw
      obtain ⟨hfm, hw⟩ := hw
      simp only [exec, execEvent, nMint, nFire, nClose]
      rw [step_canon cb m f c hfm hc, ih m (f + 1) c hw hc (by omega)]
      congr 1
      omega
    | close =>
      simp only [wfFrom, Bool.and_eq_true, decide_eq_true_eq] at hw
      obtain ⟨hc0, hw⟩ := hw
      subst hc0
      simp only [exec, execEvent, nMint, nFire, nClose]
      rw [checkRaw_canon cb m f hf, ih m f 1 hw (by omega) hf]
      congr 1
      omega

/-- The state reached by a well-formed trace from a fresh join is the
canonical state of its event counts. -/
theorem exec_wf (cb : Bool) (l : List Event) (hw : wf l = true) :
    exec (initData cb) l = canon cb (nMint l) (nFire l) (nClose l) := by
  have h := exec_canon cb l 0 0 0 hw (by omega) (by omega)
  rw [initData_eq_canon cb]
  simpa using h

theorem wf_bounds (l : List Event) (hw : wf l = true) :
    nClose l ≤ 1 ∧ nFire l ≤ nMint l := by
  have h := wfFrom_bounds l 0 0 0 hw (by omega) (by omega)
  omega

theorem wfFrom_append (p : List Event) :
    ∀ q m f c, wfFrom m f c (p ++ q) = true →
      wfFrom m f c p = true ∧
        wfFrom (m + nMint p) (f + nFire p) (c + nClose p) q = true := by
  induction p with
  | nil =>
    intro q m f c hw
    simp only [nMint, nFire, nClose, Nat.add_zero]
    exact ⟨rfl, by simpa using hw⟩
  | cons e p ih =>
    intro q m f c hw
    cases e with
    | mint =>
      simp only [List.cons_append, wfFrom, Bool.and_eq_true,
        decide_eq_true_eq] at hw ⊢
      obtain ⟨hc0, hw⟩ := hw
      have := ih q (m + 1) f c hw
      simp only [nMint, nFire, nClose]
      refine ⟨⟨hc0, this.1⟩, ?_⟩
      have h2 := this.2
      have : m + 1 + nMint p = m + (nMint p + 1) := by omega
      rwa [this] at h2
    | fire =>
      simp only [List.cons_append, wfFrom, Bool.and_eq_true,
        decide_eq_true_eq] at hw ⊢
      obtain ⟨hfm, hw⟩ := hw
      have := ih q m (f + 1) c hw
      simp only [nMint, nFire, nClose]
      refine ⟨⟨hfm, this.1⟩, ?_⟩
      have h2 := this.2
      have : f + 1 + nFire p = f + (nFire p + 1) := by omega
      rwa [this] at h2
    | close =>
      simp only [List.cons_append, wfFrom, Bool.and_eq_true,
        decide_eq_true_eq] at hw ⊢
      obtain ⟨hc0, hw⟩ := hw
      have := ih q m f (c + 1) hw
      simp only [nMint, nFire, nClose]
      refine ⟨⟨hc0, this.1⟩, ?_⟩
      have h2 := this.2
      have : c + 1 + nClose p = c + (nClose p + 1) := by omega
      rwa [this] at h2

/-- Once the close has happened, a well-formed continuation contains no
further mint (the mint assertion `assert(!_data->started)` forbids it). -/
theorem wfFrom_no_mint_after_close (q : List Event) :
    ∀ m f c, wfFrom m f c q = true → 1 ≤ c → nMint q = 0 := by
  induction q with
  | nil =>
    intro m f c _ _
    rfl
  | cons e q ih =>
    intro m f c hw hc
    cases e with
    | mint =>
      simp only [wfFrom, Bool.and_eq_true, decide_eq_true_eq] at hw
      omega
    | fire =>
      simp only [wfFrom, Bool.and_eq_true, decide_eq_true_eq] at hw
      simpa [nMint] using ih m (f + 1) c hw.2 hc
    | close =>
      simp only [wfFrom, Bool.and_eq_true, decide_eq_true_eq] at hw
      omega

theorem nMint_append (p q : List Event) :
    nMint (p ++ q) = nMint p + nMint q := by
  induction p with
  | nil => simp [nMint]
  | cons e p ih => cases e <;> simp [nMint, ih] <;> omega

theorem nFire_append (p q : List Event) :
    nFire (p ++ q) = nFire p + nFire q := by
  induction p with
  | nil => simp [nFire]
  | cons e p ih => cases e <;> simp [nFire, ih] <;> omega

theorem nClose_append (p q : List Event) :
    nClose (p ++ q) = nClose p + nClose q := by
  induction p with
  | nil => simp [nClose]
  | cons e p ih => cases e <;> simp [nClose, ih] <;> omega


theorem execE_canon (cb : Bool) (l : List Event) :
    ∀ m f c, wfFrom m f c l = true → c ≤ 1 → f ≤ m →
      execE (canon cb m f c) l = Except.ok (exec (canon cb m f c) l) := by
  induction l with
  | nil =>
    intro m f c _ _ _
    rfl
  | cons e l ih =>
    intro m f c hw hc hf
    cases e with
    | mint =>
      simp only [wfFrom, Bool.and_eq_true, decide_eq_true_eq] at hw
      obtain ⟨hc0, hw⟩ := hw
      subst hc0
      have hst : (canon cb m f 0).started = false := by simp [canon]
      simp only [execE, exec, execEvent, mintE, hst, Bool.false_eq_true,
        if_false]
      rw [mintRaw_canon]
      exact ih (m + 1) f 0 hw (by omega) (by omega)
    | fire =>
      simp only [wfFrom, Bool.and_eq_true, decide_eq_true_eq] at hw
      obtain ⟨hfm, hw⟩ := hw
      simp only [execE, exec, execEvent]
      rw [step_canon cb m f c hfm hc]
      exact ih m (f + 1) c hw hc (by omega)
    | close =>
      simp only [wfFrom, Bool.and_eq_true, decide_eq_true_eq] at hw
      obtain ⟨hc0, hw⟩ := hw
      subst hc0
      have hst : (canon cb m f 0).started = false := by simp [canon]
      simp only [execE, exec, execEvent, checkE, hst, Bool.false_eq_true,
        if_false]
      rw [checkRaw_canon cb m f hf]
      exact ih m f 1 hw (by omega) hf

theorem applyStarter_started (k : Nat) (d : Data) :
    (applyStarter k d).started = d.started := by
  induction k with
  | zero => rfl
  | succ n ih =>
    unfold applyStarter
    rw [Function.iterate_succ_apply']
    rw [step_started]
    exact ih

theorem mintRaw_started (d : Data) : (mintRaw d).started = d.started := rfl

theorem opCall_eq_spec (l : List Nat) :
    ∀ k d, d.started = false →
      opCall d (k :: l) = checkE (runSpecPhase d (k :: l)) := by
  induction l with
  | nil =>
    intro k d hd
    simp only [opCall, mintE, hd, Bool.false_eq_true, if_false,
      runSpecPhase]
  | cons k2 l ih =>
    intro k d hd
    simp only [opCall, mintE, hd, Bool.false_eq_true, if_false]
    rw [ih k2 (applyStarter k (mintRaw d))
      (by rw [applyStarter_started, mintRaw_started]; exact hd)]
    rfl

theorem runSpecPhase_zero (n : Nat) :
    ∀ d, runSpecPhase d (List.replicate n 0) =
      { d with counter := d.counter + n } := by
  induction n with
  | zero =>
    intro d
    simp [runSpecPhase, List.replicate]
  | succ n ih =>
    intro d
    simp only [List.replicate, runSpecPhase, applyStarter,
      Function.iterate_zero, id]
    rw [ih (mintRaw d)]
    simp only [mintRaw]
    congr 1
    push_cast
    ring

theorem wfFrom_replicate_mint (n : Nat) :
    ∀ m f r, wfFrom m f 0 (List.replicate n Event.mint ++ r) =
      wfFrom (m + n) f 0 r := by
  induction n with
  | zero =>
    intro m f r
    simp [List.replicate]
  | succ n ih =>
    intro m f r
    simp only [List.replicate, List.cons_append, wfFrom, decide_eq_true_eq,
      List.append_eq]
    rw [ih (m + 1) f r]
    have h1 : m + 1 + n = m + (n + 1) := by omega
    rw [h1]
    simp

theorem wfFrom_replicate_fire (k : Nat) :
    ∀ m f c r, f + k ≤ m →
      wfFrom m f c (List.replicate k Event.fire ++ r) =
        wfFrom m (f + k) c r := by
  induction k with
  | zero =>
    intro m f c r _
    simp [List.replicate]
  | succ k ih =>
    intro m f c r hk
    simp only [List.replicate, List.cons_append, wfFrom, List.append_eq]
    rw [ih m (f + 1) c r (by omega)]
    have h1 : f < m := by omega
    have h2 : f + 1 + k = f + (k + 1) := by omega
    rw [h2]
    simp [h1]

theorem nMint_replicate_mint (n : Nat) :
    nMint (List.replicate n Event.mint) = n := by
  induction n with
  | zero => rfl
  | succ n ih => simp [List.replicate, nMint, ih]

theorem nFire_replicate_mint (n : Nat) :
    nFire (List.replicate n Event.mint) = 0 := by
  induction n with
  | zero => rfl
  | succ n ih => simp [List.replicate, nFire, ih]

theorem nClose_replicate_mint (n : Nat) :
    nClose (List.replicate n Event.mint) = 0 := by
  induction n with
  | zero => rfl
  | succ n ih => simp [List.replicate, nClose, ih]

theorem nMint_replicate_fire (n : Nat) :
    nMint (List.replicate n Event.fire) = 0 := by
  induction n with
  | zero => rfl
  | succ n ih => simp [List.replicate, nMint, ih]

theorem nFire_replicate_fire (n : Nat) :
    nFire (List.replicate n Event.fire) = n := by
  induction n with
  | zero => rfl
  | succ n ih => simp [List.replicate, nFire, ih]

theorem nClose_replicate_fire (n : Nat) :
    nClose (List.replicate n Event.fire) = 0 := by
  induction n with
  | zero => rfl
  | succ n ih => simp [List.replicate, nClose, ih]

theorem wfFrom_replicate_fire_nil (k m f c : Nat) (h : f + k ≤ m) :
    wfFrom m f c (List.replicate k Event.fire) = true := by
  have h1 := wfFrom_replicate_fire k m f c [] h
  rw [List.append_nil] at h1
  rw [h1]
  rfl

theorem wf_mints_fires (N : Nat) (r : List Event) :
    wfFrom 0 0 0
        (List.replicate N Event.mint ++ (List.replicate N Event.fire ++ r)) =
      wfFrom N N 0 r := by
  rw [wfFrom_replicate_mint N 0 0 (List.replicate N Event.fire ++ r)]
  rw [wfFrom_replicate_fire N (0 + N) 0 0 r (by omega)]
  simp

/-- C1.  Single-fire: for every N ≥ 0 and every well-formed interleaving
of the N slot invocations with the one `check()` call (mints all precede
the close, each minted slot fires exactly once), the completion callback
is invoked exactly once across the whole run. -/
theorem single_fire (t : List Event) (hw : wf t = true)
    (hf : nFire t = nMint t) (hc : nClose t = 1) :
    (exec (initData true) t).fired = 1 := by
  rw [exec_wf true t hw]
  simp [canon, hf, hc]

theorem single_fire_witness :
    (wf [Event.mint, Event.fire, Event.close] = true ∧
      nFire [Event.mint, Event.fire, Event.close] =
        nMint [Event.mint, Event.fire, Event.close] ∧
      nClose [Event.mint, Event.fire, Event.close] = 1) ∧
    (exec (initData true) [Event.mint, Event.fire, Event.close]).fired = 1 :=
  ⟨⟨by decide, by decide, by decide⟩,
    single_fire [Event.mint, Event.fire, Event.close]
      (by decide) (by decide) (by decide)⟩

/-- C2 (counterexample).  After the reachable closed trace
`[mint, mint, close]` (two slots minted, registration closed, no slot
fired yet), a slot invocation decrements the counter to a post-decrement
value of `0 ≤ 0` with `started = true`, yet the completion is **not**
invoked: `step` fires on pre-decrement value `0` (post-decrement `−1`),
not on post-decrement `≤ 0`. -/
theorem step_postdec_counterexample :
    wf [Event.mint, Event.mint, Event.close] = true ∧
    (exec (initData true) [Event.mint, Event.mint, Event.close]).started
      = true ∧
    (step (exec (initData true)
      [Event.mint, Event.mint, Event.close])).counter ≤ 0 ∧
    (step (exec (initData true)
      [Event.mint, Event.mint, Event.close])).fired = 0 := by
  decide

/-- C2 (amended).  In every reachable state of a join (any well-formed
trace, closed or not), a slot invocation fires the completion exactly
when the decrement takes the counter to a post-decrement value of `−1`
(i.e. the pre-decrement value is `0`) **and** the closed flag is true:
both the threshold test and the `started` guard of `step` are necessary
and together sufficient. -/
theorem step_fires_iff_postdec_neg_one (p : List Event)
    (hw : wf p = true) :
    ((step (exec (initData true) p)).fired
        = (exec (initData true) p).fired + 1 ↔
      ((step (exec (initData true) p)).counter = -1 ∧
        (exec (initData true) p).started = true)) := by
  apply step_fired_iff
  rw [exec_wf true p hw]
  rfl

theorem step_fires_iff_postdec_neg_one_witness :
    (wf [Event.mint, Event.close] = true) ∧
    ((step (exec (initData true) [Event.mint, Event.close])).fired
        = (exec (initData true) [Event.mint, Event.close]).fired + 1 ↔
      ((step (exec (initData true) [Event.mint, Event.close])).counter
          = -1 ∧
        (exec (initData true) [Event.mint, Event.close]).started
          = true)) :=
  ⟨by decide,
    step_fires_iff_postdec_neg_one [Event.mint, Event.close] (by decide)⟩

/-- C3.  No-fire-before-all-invoked: in every well-formed execution
prefix `p` of a run that mints `N` slots in total, if fewer than `N`
slots have fired within `p`, the completion has not been invoked — even
if the close is already inside `p`. -/
theorem no_fire_before_all_invoked (p q : List Event) (N : Nat)
    (hw : wf (p ++ q) = true) (hm : nMint (p ++ q) = N)
    (hf : nFire p < N) :
    (exec (initData true) p).fired = 0 := by
  have hsplit := wfFrom_append p q 0 0 0 hw
  have hwp : wf p = true := hsplit.1
  have hq := hsplit.2
  rw [exec_wf true p hwp]
  simp only [canon, Bool.true_and, Bool.and_eq_true, decide_eq_true_eq]
  split_ifs with hcond
  · exfalso
    obtain ⟨hcpos, hfm⟩ := hcond
    have hnm : nMint q = 0 :=
      wfFrom_no_mint_after_close q (0 + nMint p) (0 + nFire p)
        (0 + nClose p) hq (by omega)
    rw [nMint_append] at hm
    omega
  · rfl

theorem no_fire_before_all_invoked_witness :
    (wf ([Event.mint, Event.close] ++ [Event.fire]) = true ∧
      nMint ([Event.mint, Event.close] ++ [Event.fire]) = 1 ∧
      nFire [Event.mint, Event.close] < 1) ∧
    (exec (initData true) [Event.mint, Event.close]).fired = 0 :=
  ⟨⟨by decide, by decide, by decide⟩,
    no_fire_before_all_invoked [Event.mint, Event.close] [Event.fire] 1
      (by decide) (by decide) (by decide)⟩

/-- C4.  `check()` sets `started` and then performs one decrement-and-test
cycle (`step`) with the same semantics as a slot invocation: a join with
zero minted slots fires the completion at the close itself; a join whose
`N` slots all fired before the close has not fired yet, and fires during
the `check()` call, leaving the counter at `−1` (the close consumed one
decrement). -/
theorem close_counts_as_decrement (N : Nat) :
    (exec (initData true) [Event.close]).fired = 1 ∧
    (exec (initData true)
      (List.replicate N Event.mint ++ List.replicate N Event.fire)).fired
        = 0 ∧
    (exec (initData true)
      (List.replicate N Event.mint ++
        (List.replicate N Event.fire ++ [Event.close]))).fired = 1 ∧
    (exec (initData true)
      (List.replicate N Event.mint ++
        (List.replicate N Event.fire ++ [Event.close]))).counter = -1 ∧
    (exec (initData true)
      (List.replicate N Event.mint ++
        (List.replicate N Event.fire ++ [Event.close]))).started = true := by
  have hw2 : wf (List.replicate N Event.mint ++ List.replicate N Event.fire)
      = true := by
    unfold wf
    rw [wfFrom_replicate_mint N 0 0 (List.replicate N Event.fire)]
    exact wfFrom_replicate_fire_nil N (0 + N) 0 0 (by omega)
  have hw3 : wf (List.replicate N Event.mint ++
      (List.replicate N Event.fire ++ [Event.close])) = true := by
    unfold wf
    rw [wf_mints_fires N [Event.close]]
    simp [wfFrom]
  have hc2 := exec_wf true _ hw2
  have hc3 := exec_wf true _ hw3
  rw [nMint_append, nFire_append, nClose_append] at hc2
  rw [nMint_append, nFire_append, nClose_append, nMint_append,
    nFire_append, nClose_append] at hc3
  simp only [nMint_replicate_mint, nFire_replicate_mint,
    nClose_replicate_mint, nMint_replicate_fire, nFire_replicate_fire,
    nClose_replicate_fire] at hc2 hc3
  refine ⟨by decide, ?_, ?_, ?_, ?_⟩
  · rw [hc2]
    simp [canon]
  · rw [hc3]
    simp [canon, nMint, nFire, nClose]
  · rw [hc3]
    simp [canon, nMint, nFire, nClose]
  · rw [hc3]
    simp [canon, nMint, nFire, nClose]

/-- C5 (counterexample).  The `operator()` overload set of
`ParallelCallback` has no zero-argument member, so
`ParallelCallback::run(completion)` with an empty starter pack selects no
overload (`noOverload` in the model): it does not produce a run at all,
and in particular does not invoke the completion once. -/
theorem run_zero_starters_counterexample :
    runPC true [] = Except.error RunError.noOverload := rfl

/-- C5 (amended).  `run` requires at least one starter: with an empty
starter pack there is no viable `operator()` overload and the completion
is not invoked.  The zero-slot behaviour holds at the level of the
primitive instead: constructing the join over the completion and calling
`check()` directly passes its assertion and invokes the completion
exactly once, synchronously, with no slot ever minted. -/
theorem run_zero_starters_amended :
    runPC true [] = Except.error RunError.noOverload ∧
    checkE (initData true) = Except.ok (checkRaw (initData true)) ∧
    (checkRaw (initData true)).fired = 1 := by
  exact ⟨rfl, rfl, by decide⟩

/-- C6.  The fan-out `run(completion, starter_1, ..., starter_n)` with
`n ≥ 1` starters equals the spec-shaped reference `runSpec`: it
constructs exactly one join handle over the completion, then for each
starter in sequence order mints one slot (incrementing the counter by
one, as the all-zero-starter instantiation of the mint/invoke phase
shows) and invokes that starter synchronously with the slot, and calls
`check()` only after the last starter has been invoked. -/
theorem run_eq_spec (k : Nat) (l : List Nat) (n : Nat) :
    runPC true (k :: l) = runSpec true (k :: l) ∧
    (runSpecPhase (initData true) (List.replicate n 0)).counter = n := by
  constructor
  · unfold runPC runSpec
    exact opCall_eq_spec l k (initData true) rfl
  · rw [runSpecPhase_zero n (initData true)]
    simp [initData]

/-- C7.  Contract assertions: in any reachable closed state (a
well-formed trace containing the close), minting a further slot and
calling `check()` a second time both trip `assert(!_data->started)`;
conversely, on any well-formed trace (all mints before the single close,
no over-firing) the assertion-checked execution never fails and agrees
with the unchecked one. -/
theorem assertion_contract (p t : List Event) (hp : wf p = true)
    (hc : nClose p = 1) (ht : wf t = true) :
    mintE (exec (initData true) p) = Except.error RunError.assertFailed ∧
    checkE (exec (initData true) p) = Except.error RunError.assertFailed ∧
    execE (initData true) t = Except.ok (exec (initData true) t) := by
  have hst : (exec (initData true) p).started = true := by
    rw [exec_wf true p hp]
    simp [canon, hc]
  refine ⟨?_, ?_, ?_⟩
  · simp [mintE, hst]
  · simp [checkE, hst]
  · have h := execE_canon true t 0 0 0 ht (by omega) (by omega)
    rw [initData_eq_canon true]
    exact h

theorem assertion_contract_witness :
    (wf [Event.close] = true ∧ nClose [Event.close] = 1 ∧
      wf [Event.mint, Event.close, Event.fire] = true) ∧
    (mintE (exec (initData true) [Event.close])
        = Except.error RunError.assertFailed ∧
      checkE (exec (initData true) [Event.close])
        = Except.error RunError.assertFailed ∧
      execE (initData true) [Event.mint, Event.close, Event.fire]
        = Except.ok
            (exec (initData true) [Event.mint, Event.close, Event.fire])) :=
  ⟨⟨by decide, by decide, by decide⟩,
    assertion_contract [Event.close] [Event.mint, Event.close, Event.fire]
      (by decide) (by decide) (by decide)⟩

/-- C9.  Counter invariant: in every reachable state of a well-formed
join run, the counter equals (mints) − (fires) − (1 if closed else 0);
the completion has been invoked iff the counter equals −1; the completion
never fires twice; and a complete run (close done, every mint fired)
rests at counter −1, not 0. -/
theorem counter_invariant (p : List Event) (hw : wf p = true) :
    (exec (initData true) p).counter =
      (nMint p : Int) - (nFire p : Int) - (nClose p : Int) ∧
    (0 < (exec (initData true) p).fired ↔
      (exec (initData true) p).counter = -1) ∧
    (exec (initData true) p).fired ≤ 1 ∧
    (nClose p = 1 → nFire p = nMint p →
      (exec (initData true) p).counter = -1) := by
  have hb := wf_bounds p hw
  rw [exec_wf true p hw]
  simp only [canon, Bool.true_and, Bool.and_eq_true, decide_eq_true_eq]
  refine ⟨by trivial, ?_, ?_, ?_⟩
  · split_ifs with hcond
    · constructor
      · intro _
        omega
      · intro _
        omega
    · constructor
      · intro h
        exfalso
        omega
      · intro h
        exfalso
        rcases not_and_or.mp hcond with h1 | h1 <;> omega
  · split_ifs <;> omega
  · intro h1 h2
    omega

theorem counter_invariant_witness :
    (wf [Event.mint, Event.close, Event.fire] = true) ∧
    ((exec (initData true) [Event.mint, Event.close, Event.fire]).counter =
      (nMint [Event.mint, Event.close, Event.fire] : Int) -
        (nFire [Event.mint, Event.close, Event.fire] : Int) -
        (nClose [Event.mint, Event.close, Event.fire] : Int) ∧
    (0 < (exec (initData true)
        [Event.mint, Event.close, Event.fire]).fired ↔
      (exec (initData true)
        [Event.mint, Event.close, Event.fire]).counter = -1) ∧
    (exec (initData true) [Event.mint, Event.close, Event.fire]).fired ≤ 1 ∧
    (nClose [Event.mint, Event.close, Event.fire] = 1 →
      nFire [Event.mint, Event.close, Event.fire] =
        nMint [Event.mint, Event.close, Event.fire] →
      (exec (initData true)
        [Event.mint, Event.close, Event.fire]).counter = -1)) :=
  ⟨by decide,
    counter_invariant [Event.mint, Event.close, Event.fire] (by decide)⟩

/-- C10.  Winner-after-close: in a well-formed run, whenever a slot
invocation is about to decrement from a pre-decrement counter value of
`0`, the close has necessarily already run (so `started = true`), and the
`started` test inside `step` does not suppress that winning decrement's
invocation of the (non-empty) completion. -/
theorem winner_after_close (p : List Event)
    (hw : wf (p ++ [Event.fire]) = true)
    (h0 : (exec (initData true) p).counter = 0) :
    (exec (initData true) p).started = true ∧
    (step (exec (initData true) p)).fired
      = (exec (initData true) p).fired + 1 := by
  have hsplit := wfFrom_append p [Event.fire] 0 0 0 hw
  have hwp : wf p = true := hsplit.1
  have hq := hsplit.2
  have hflt : nFire p < nMint p := by
    simp only [wfFrom, Bool.and_eq_true, decide_eq_true_eq] at hq
    omega
  have hb := wf_bounds p hwp
  rw [exec_wf true p hwp] at h0 ⊢
  have hcnt : (canon true (nMint p) (nFire p) (nClose p)).counter =
      (nMint p : Int) - (nFire p : Int) - (nClose p : Int) := rfl
  have hC : nClose p = 1 := by
    rw [hcnt] at h0
    omega
  have hst : (canon true (nMint p) (nFire p) (nClose p)).started = true := by
    simp [canon, hC]
  refine ⟨hst, ?_⟩
  rw [step_fired]
  rw [if_pos ⟨h0, hst, rfl⟩]

theorem winner_after_close_witness :
    (wf ([Event.mint, Event.close] ++ [Event.fire]) = true ∧
      (exec (initData true) [Event.mint, Event.close]).counter = 0) ∧
    ((exec (initData true) [Event.mint, Event.close]).started = true ∧
      (step (exec (initData true) [Event.mint, Event.close])).fired
        = (exec (initData true) [Event.mint, Event.close]).fired + 1) :=
  ⟨⟨by decide, by decide⟩,
    winner_after_close [Event.mint, Event.close] (by decide) (by decide)⟩

end ParallelJoin

namespace Test1

/-- C8.  In `parallel_test_1.cpp` the decrement and the subsequent
load-and-compare are two separate atomic steps, so the interleaving in
which both tasks decrement before either loads (schedule
`[A-dec, B-dec, A-load, B-load]`) makes both loads observe `0` and
invokes the completion twice, violating single-fire; both tasks complete
their two steps in this schedule. -/
theorem double_fire_interleaving :
    (Test1.sched Test1.init [false, true, false, true]).fired = 2 ∧
    (Test1.sched Test1.init [false, true, false, true]).pcA = 2 ∧
    (Test1.sched Test1.init [false, true, false, true]).pcB = 2 := by
  decide

end Test1
